import Mathlib

/-!
Verification of the zoom-interpolation engine in `crates/rendering/src/zoom.rs`.

The `f64` arithmetic of the source (additions, subtractions, multiplications,
divisions and order comparisons only) is modelled over `ℚ`; all definitions
below are direct transcriptions of the corresponding Rust items, with debug
printing dropped.
-/

unseal Rat.inv Rat.mul Rat.sub Rat.add

namespace Cap

/-- Transition length in seconds: `ZOOM_DURATION` in `zoom.rs`. -/
def ZOOM_DURATION : ℚ := 1

/-- Cursor smoothing window in seconds: `CURSOR_SMOOTHING_WINDOW` in `zoom.rs` (150 ms). -/
def CURSOR_SMOOTHING_WINDOW : ℚ := 3 / 20

/-- Model of `cap_project::XY<f64>`: a 2D point. -/
structure XY where
  x : ℚ
  y : ℚ
  deriving DecidableEq

instance : Add XY := ⟨fun a b => ⟨a.x + b.x, a.y + b.y⟩⟩

instance : Sub XY := ⟨fun a b => ⟨a.x - b.x, a.y - b.y⟩⟩

instance : HMul XY ℚ XY := ⟨fun a s => ⟨a.x * s, a.y * s⟩⟩

/-- Model of `cap_project::ZoomMode`: `Auto` follows the cursor track,
`Manual { x, y }` is a fixed focus point (the `f32` coordinates are modelled over `ℚ`). -/
inductive ZoomMode where
  | auto : ZoomMode
  | manual (x y : ℚ) : ZoomMode
  deriving DecidableEq

/-- Model of `cap_project::ZoomSegment` (`end` is a Lean keyword, hence `end_`). -/
structure ZoomSegment where
  start : ℚ
  end_ : ℚ
  amount : ℚ
  mode : ZoomMode
  deriving DecidableEq

/-- Model of a cursor move event as used by `zoom.rs`: a timestamp in milliseconds and a
normalized position. -/
structure CursorMoveEvent where
  process_time_ms : ℚ
  x : ℚ
  y : ℚ
  deriving DecidableEq

/-- Model of `cap_project::cursor::CursorEvents` as used by `zoom.rs`: the ordered list of
cursor move samples together with the `cursor_position_at` lookup.
Modelled from the spec: the body of `CursorEvents::cursor_position_at` is not among the
given sources; the spec describes it as an external black-box "exact position at time"
lookup, so it is modelled as an arbitrary function field of the track. -/
structure CursorEvents where
  moves : List CursorMoveEvent
  cursor_position_at : ℚ → Option (ℚ × ℚ)

/-- Model of `SegmentsCursor` in `zoom.rs`. -/
structure SegmentsCursor where
  time : ℚ
  segment : Option ZoomSegment
  prev_segment : Option ZoomSegment
  segments : List ZoomSegment

/-- The locator's active-segment test, the closure `|s| time > s.start && time <= s.end`
in `SegmentsCursor::new`. -/
def segActive (time : ℚ) (s : ZoomSegment) : Bool :=
  decide (s.start < time) && decide (time ≤ s.end_)

/-- The locator's already-ended test, the closure `|(_, s)| s.end <= time` in
`SegmentsCursor::new`. -/
def segEnded (time : ℚ) (s : ZoomSegment) : Bool :=
  decide (s.end_ ≤ time)

/-- Model of `SegmentsCursor::new`: the segment locator.  `Iterator::position` is
`List.findIdx?`, the reversed enumerated search is `List.find?` over the reversed list
(the enumeration index is discarded by the source); the slice indexings `segments[i]` are
guarded by the index returned by `position`, so they are rendered with `l[i]?` (always
`some` at those indices). -/
def SegmentsCursor.new (time : ℚ) (segments : List ZoomSegment) : SegmentsCursor :=
  match segments.findIdx? (segActive time) with
  | some segment_index =>
      { time := time
        segment := segments[segment_index]?
        prev_segment := if segment_index > 0 then segments[segment_index - 1]? else none
        segments := segments }
  | none =>
      { time := time
        segment := none
        prev_segment := segments.reverse.find? (segEnded time)
        segments := segments }

/-- Model of `SegmentBounds` in `zoom.rs`. -/
structure SegmentBounds where
  top_left : XY
  bottom_right : XY
  deriving DecidableEq

/-- Model of `SegmentBounds::new`. -/
def SegmentBounds.new (top_left bottom_right : XY) : SegmentBounds :=
  { top_left := top_left, bottom_right := bottom_right }

/-- Model of `SegmentBounds::default`: the full frame `((0,0),(1,1))`. -/
def SegmentBounds.default : SegmentBounds :=
  SegmentBounds.new ⟨0, 0⟩ ⟨1, 1⟩

/-- Loop body of the first pass of `get_smoothed_cursor_position`: fold state is
`(positions, total_weight, weighted_x, weighted_y)`. -/
def smoothing_step (time window : ℚ) (acc : List (ℚ × ℚ × ℚ) × ℚ × ℚ × ℚ)
    (event : CursorMoveEvent) : List (ℚ × ℚ × ℚ) × ℚ × ℚ × ℚ :=
  let event_time := event.process_time_ms / 1000
  if time - window / 2 ≤ event_time ∧ event_time ≤ time + window / 2 then
    let time_diff := |time - event_time|
    let weight := 1 - min (time_diff / (window / 2)) 1
    (acc.1 ++ [(event.x, event.y, weight)], acc.2.1 + weight,
      acc.2.2.1 + event.x * weight, acc.2.2.2 + event.y * weight)
  else acc

/-- First pass of `get_smoothed_cursor_position` over `events.moves`. -/
def smoothing_scan (moves : List CursorMoveEvent) (time window : ℚ) :
    List (ℚ × ℚ × ℚ) × ℚ × ℚ × ℚ :=
  moves.foldl (smoothing_step time window) ([], 0, 0, 0)

/-- Loop body of the second pass of `get_smoothed_cursor_position`: fold state is
`(before, after)`, each an optional `(event_time, x, y)` triple. -/
def neighbor_step (time : ℚ) (acc : Option (ℚ × ℚ × ℚ) × Option (ℚ × ℚ × ℚ))
    (event : CursorMoveEvent) : Option (ℚ × ℚ × ℚ) × Option (ℚ × ℚ × ℚ) :=
  let event_time := event.process_time_ms / 1000
  if event_time ≤ time then
    match acc.1 with
    | some (prev_time, px, py) =>
        if event_time > prev_time then (some (event_time, event.x, event.y), acc.2)
        else (some (prev_time, px, py), acc.2)
    | none => (some (event_time, event.x, event.y), acc.2)
  else
    match acc.2 with
    | some (next_time, nx, ny) =>
        if event_time < next_time then (acc.1, some (event_time, event.x, event.y))
        else (acc.1, some (next_time, nx, ny))
    | none => (acc.1, some (event_time, event.x, event.y))

/-- Second pass of `get_smoothed_cursor_position` over `events.moves`. -/
def neighbor_scan (moves : List CursorMoveEvent) (time : ℚ) :
    Option (ℚ × ℚ × ℚ) × Option (ℚ × ℚ × ℚ) :=
  moves.foldl (neighbor_step time) (none, none)

/-- Model of `get_smoothed_cursor_position` in `zoom.rs`: the cursor position resolver. -/
def get_smoothed_cursor_position (events : CursorEvents) (time window : ℚ) :
    Option (ℚ × ℚ) :=
  match events.cursor_position_at time with
  | some pos =>
      let scan := smoothing_scan events.moves time window
      if scan.1 ≠ [] ∧ scan.2.1 > 0 then
        some (scan.2.2.1 / scan.2.1, scan.2.2.2 / scan.2.1)
      else
        some pos
  | none =>
      match (neighbor_scan events.moves time).1, (neighbor_scan events.moves time).2 with
      | some (t1, x1, y1), some (t2, x2, y2) =>
          let t_diff := t2 - t1
          if t_diff > 0 then
            let factor := (time - t1) / t_diff
            some (x1 + (x2 - x1) * factor, y1 + (y2 - y1) * factor)
          else
            some (x1, y1)
      | some (_, x, y), none => some (x, y)
      | none, some (_, x, y) => some (x, y)
      | none, none => none

/-- Model of `SegmentBounds::from_segment` (debug printing dropped): the segment bounds
calculator. -/
def SegmentBounds.from_segment (segment : ZoomSegment) (current_time : ℚ)
    (cursor_events : Option CursorEvents) : SegmentBounds :=
  let position : ℚ × ℚ :=
    match segment.mode with
    | ZoomMode.auto =>
        match cursor_events with
        | some events =>
            match get_smoothed_cursor_position events current_time CURSOR_SMOOTHING_WINDOW with
            | some pos => pos
            | none => (1 / 2, 1 / 2)
        | none => (1 / 2, 1 / 2)
    | ZoomMode.manual x y => (x, y)
  let scaled_center : ℚ × ℚ := (position.1 * segment.amount, position.2 * segment.amount)
  let center_diff : ℚ × ℚ := (scaled_center.1 - position.1, scaled_center.2 - position.2)
  SegmentBounds.new ⟨0 - center_diff.1, 0 - center_diff.2⟩
    ⟨segment.amount - center_diff.1, segment.amount - center_diff.2⟩

/-- Model of `InterpolatedZoom` in `zoom.rs`. -/
structure InterpolatedZoom where
  t : ℚ
  bounds : SegmentBounds
  deriving DecidableEq

/-- Model of `t_clamp`: `v.clamp(0.0, 1.0)`. -/
def t_clamp (v : ℚ) : ℚ := min (max v 0) 1

/-- Model of `InterpolatedZoom::new_with_easing`.  The Rust function receives a
`SegmentsCursor` (always built by `SegmentsCursor::new`, the struct's only constructor) and
recurses through `SegmentsCursor::new(segment.start, ..)`; here the locator call is inlined
and the recursion carries an explicit `fuel` counter.  Every recursive call strictly
decreases the number of segment starts below the query time, so the
`segments.length + 1` fuel supplied by `InterpolatedZoom.new_with_easing` always exceeds
the recursion depth and the `fuel = 0` branch is unreachable from the wrapper. -/
def InterpolatedZoom.new_with_easing_fuel :
    ℕ → ℚ → List ZoomSegment → Option CursorEvents → (ℚ → ℚ) → (ℚ → ℚ) → InterpolatedZoom
  | 0, _, _, _, _, _ => { t := 0, bounds := SegmentBounds.default }
  | Nat.succ fuel, time, segments, cursor_events, ease_in, ease_out =>
      let cursor := SegmentsCursor.new time segments
      let default := SegmentBounds.default
      match cursor.prev_segment, cursor.segment with
      | some prev_segment, none =>
          let zoom_t := ease_out (t_clamp ((cursor.time - prev_segment.end_) / ZOOM_DURATION))
          { t := 1 - zoom_t
            bounds :=
              let prev_segment_bounds :=
                SegmentBounds.from_segment prev_segment cursor.time cursor_events
              SegmentBounds.new
                (prev_segment_bounds.top_left * (1 - zoom_t) + default.top_left * zoom_t)
                (prev_segment_bounds.bottom_right * (1 - zoom_t) +
                  default.bottom_right * zoom_t) }
      | none, some segment =>
          let t := ease_in (t_clamp ((cursor.time - segment.start) / ZOOM_DURATION))
          { t := t
            bounds :=
              let segment_bounds :=
                SegmentBounds.from_segment segment cursor.time cursor_events
              SegmentBounds.new
                (default.top_left * (1 - t) + segment_bounds.top_left * t)
                (default.bottom_right * (1 - t) + segment_bounds.bottom_right * t) }
      | some prev_segment, some segment =>
          let prev_segment_bounds :=
            SegmentBounds.from_segment prev_segment cursor.time cursor_events
          let segment_bounds := SegmentBounds.from_segment segment cursor.time cursor_events
          let zoom_t := ease_in (t_clamp ((cursor.time - segment.start) / ZOOM_DURATION))
          if segment.start = prev_segment.end_ then
            { t := 1
              bounds := SegmentBounds.new
                (prev_segment_bounds.top_left * (1 - zoom_t) +
                  segment_bounds.top_left * zoom_t)
                (prev_segment_bounds.bottom_right * (1 - zoom_t) +
                  segment_bounds.bottom_right * zoom_t) }
          else if segment.start - prev_segment.end_ < ZOOM_DURATION then
            let min := InterpolatedZoom.new_with_easing_fuel fuel segment.start cursor.segments
              cursor_events ease_in ease_out
            { t := min.t * (1 - zoom_t) + zoom_t
              bounds :=
                let max := segment_bounds
                SegmentBounds.new
                  (min.bounds.top_left * (1 - zoom_t) + max.top_left * zoom_t)
                  (min.bounds.bottom_right * (1 - zoom_t) + max.bottom_right * zoom_t) }
          else
            { t := zoom_t
              bounds := SegmentBounds.new
                (default.top_left * (1 - zoom_t) + segment_bounds.top_left * zoom_t)
                (default.bottom_right * (1 - zoom_t) +
                  segment_bounds.bottom_right * zoom_t) }
      | none, none => { t := 0, bounds := default }

/-- The interpolation engine entry point (`interpolate` in the spec):
`InterpolatedZoom::new_with_easing` applied to `SegmentsCursor::new(time, segments)`. -/
def InterpolatedZoom.new_with_easing (time : ℚ) (segments : List ZoomSegment)
    (cursor_events : Option CursorEvents) (ease_in ease_out : ℚ → ℚ) : InterpolatedZoom :=
  InterpolatedZoom.new_with_easing_fuel (segments.length + 1) time segments cursor_events
    ease_in ease_out

/-- Model of `InterpolatedZoom::display_amount`. -/
def InterpolatedZoom.display_amount (z : InterpolatedZoom) : ℚ :=
  (z.bounds.bottom_right - z.bounds.top_left).x

/-- Componentwise linear interpolation of rectangle corners, `a*(1-f) + b*f`: the blend
`lerp` of the spec, as it appears in every branch of `new_with_easing`. -/
def lerpBounds (a b : SegmentBounds) (f : ℚ) : SegmentBounds :=
  SegmentBounds.new (a.top_left * (1 - f) + b.top_left * f)
    (a.bottom_right * (1 - f) + b.bottom_right * f)

/-- The spec's precondition on segment lists: every segment is a proper interval and the
list is sorted with mutually non-overlapping intervals. -/
def WellFormed (segments : List ZoomSegment) : Prop :=
  (∀ s ∈ segments, s.start < s.end_) ∧
    List.Chain' (fun a b => a.end_ ≤ b.start) segments

instance instDecidableChainSep :
    ∀ segments : List ZoomSegment,
      Decidable (List.Chain' (fun a b : ZoomSegment => a.end_ ≤ b.start) segments)
  | [] => isTrue List.chain'_nil
  | [s] => isTrue (List.chain'_singleton s)
  | a :: b :: l =>
      haveI := instDecidableChainSep (b :: l)
      decidable_of_iff (a.end_ ≤ b.start ∧
        List.Chain' (fun x y : ZoomSegment => x.end_ ≤ y.start) (b :: l))
        (@List.chain'_cons ZoomSegment (fun x y : ZoomSegment => x.end_ ≤ y.start) a b l).symm

instance (segments : List ZoomSegment) : Decidable (WellFormed segments) :=
  inferInstanceAs (Decidable ((∀ s ∈ segments, s.start < s.end_) ∧
    List.Chain' (fun a b : ZoomSegment => a.end_ ≤ b.start) segments))

/-- Seconds timestamp of a cursor sample. -/
def eventSeconds (e : CursorMoveEvent) : ℚ := e.process_time_ms / 1000

/-- Samples whose time in seconds falls in `[time - window/2, time + window/2]`
(the spec's smoothing window). -/
def windowSamples (moves : List CursorMoveEvent) (time window : ℚ) :
    List CursorMoveEvent :=
  moves.filter (fun e =>
    decide (time - window / 2 ≤ eventSeconds e) &&
      decide (eventSeconds e ≤ time + window / 2))

/-- Triangular-kernel weight of a sample: `1 - min(|Δt| / (window/2), 1)`. -/
def triWeight (time window : ℚ) (e : CursorMoveEvent) : ℚ :=
  1 - min (|time - eventSeconds e| / (window / 2)) 1

/-- The cursor resolver exactly as claim C6 words it: on exact-lookup success, the
triangular-kernel weighted average over in-window samples when at least one sample is
in-window and total weight is positive, the exact result otherwise; on exact-lookup
failure, linear interpolation between the nearest sample strictly before `time` and the
nearest sample strictly after it. -/
def resolve_claimed (events : CursorEvents) (time window : ℚ) : Option (ℚ × ℚ) :=
  match events.cursor_position_at time with
  | some pos =>
      let inw := windowSamples events.moves time window
      let total_weight := (inw.map (triWeight time window)).sum
      if inw ≠ [] ∧ total_weight > 0 then
        some ((inw.map (fun e => e.x * triWeight time window e)).sum / total_weight,
          (inw.map (fun e => e.y * triWeight time window e)).sum / total_weight)
      else some pos
  | none =>
      let before := (events.moves.filter (fun e => decide (eventSeconds e < time))).argmax
        eventSeconds
      let after := (events.moves.filter (fun e => decide (time < eventSeconds e))).argmin
        eventSeconds
      match before, after with
      | some b, some a =>
          let t_diff := eventSeconds a - eventSeconds b
          if t_diff > 0 then
            let factor := (time - eventSeconds b) / t_diff
            some (b.x + (a.x - b.x) * factor, b.y + (a.y - b.y) * factor)
          else some (b.x, b.y)
      | some b, none => some (b.x, b.y)
      | none, some a => some (a.x, a.y)
      | none, none => none

/-- The cursor resolver as claim C6 must be amended: identical to `resolve_claimed` except
that the fallback interpolation takes the nearest sample at-or-before `time` (a sample
exactly at the query time counts as the before-neighbor) rather than strictly before. -/
def resolve_amended (events : CursorEvents) (time window : ℚ) : Option (ℚ × ℚ) :=
  match events.cursor_position_at time with
  | some pos =>
      let inw := windowSamples events.moves time window
      let total_weight := (inw.map (triWeight time window)).sum
      if inw ≠ [] ∧ total_weight > 0 then
        some ((inw.map (fun e => e.x * triWeight time window e)).sum / total_weight,
          (inw.map (fun e => e.y * triWeight time window e)).sum / total_weight)
      else some pos
  | none =>
      let before := (events.moves.filter (fun e => decide (eventSeconds e ≤ time))).argmax
        eventSeconds
      let after := (events.moves.filter (fun e => decide (time < eventSeconds e))).argmin
        eventSeconds
      match before, after with
      | some b, some a =>
          let t_diff := eventSeconds a - eventSeconds b
          if t_diff > 0 then
            let factor := (time - eventSeconds b) / t_diff
            some (b.x + (a.x - b.x) * factor, b.y + (a.y - b.y) * factor)
          else some (b.x, b.y)
      | some b, none => some (b.x, b.y)
      | none, some a => some (a.x, a.y)
      | none, none => none

/-- The two-segment short-gap example list of the spec and of claim C1:
`[(2, 4, amount 2, Manual(.5,.5)), (4.75, 6, amount 4, Manual(.5,.5))]`. -/
def segsDemo : List ZoomSegment :=
  [⟨2, 4, 2, ZoomMode.manual (1 / 2) (1 / 2)⟩,
    ⟨19 / 4, 6, 4, ZoomMode.manual (1 / 2) (1 / 2)⟩]

/-- Two adjacent segments (`gap = 0`) with amounts 2 then 4, Manual centers `(0,0)` and
`(0.5,0.5)`, as in the spec's no-gap example. -/
def segsAdj : List ZoomSegment :=
  [⟨2, 4, 2, ZoomMode.manual 0 0⟩, ⟨4, 6, 4, ZoomMode.manual (1 / 2) (1 / 2)⟩]

/-- A single segment shorter than `ZOOM_DURATION`: `(2, 2.5, amount 2, Manual(.5,.5))`. -/
def segsShort : List ZoomSegment :=
  [⟨2, 5 / 2, 2, ZoomMode.manual (1 / 2) (1 / 2)⟩]

/-- A cursor track with no exact-lookup collaborator and three samples at 1 s, 2 s and 3 s,
the middle one exactly at the query time used in the C6 counterexample. -/
def trackDemo : CursorEvents :=
  { moves := [⟨1000, 0, 0⟩, ⟨2000, 3 / 5, 3 / 5⟩, ⟨3000, 1, 1⟩]
    cursor_position_at := fun _ => none }

/-! ## Helper lemmas -/

@[simp]
theorem XY.add_x (a b : XY) : (a + b).x = a.x + b.x := rfl

@[simp]
theorem XY.add_y (a b : XY) : (a + b).y = a.y + b.y := rfl

@[simp]
theorem XY.sub_x (a b : XY) : (a - b).x = a.x - b.x := rfl

@[simp]
theorem XY.sub_y (a b : XY) : (a - b).y = a.y - b.y := rfl

@[simp]
theorem XY.hmul_x (a : XY) (s : ℚ) : (a * s).x = a.x * s := rfl

@[simp]
theorem XY.hmul_y (a : XY) (s : ℚ) : (a * s).y = a.y * s := rfl

@[simp]
theorem SegmentsCursor.new_time (time : ℚ) (segments : List ZoomSegment) :
    (SegmentsCursor.new time segments).time = time := by
  unfold SegmentsCursor.new
  rcases h : segments.findIdx? (segActive time) with _ | i <;> simp [h]

@[simp]
theorem SegmentsCursor.new_segments (time : ℚ) (segments : List ZoomSegment) :
    (SegmentsCursor.new time segments).segments = segments := by
  unfold SegmentsCursor.new
  rcases h : segments.findIdx? (segActive time) with _ | i <;> simp [h]

theorem segActive_iff (time : ℚ) (s : ZoomSegment) :
    segActive time s = true ↔ s.start < time ∧ time ≤ s.end_ := by
  simp [segActive]

theorem segEnded_iff (time : ℚ) (s : ZoomSegment) :
    segEnded time s = true ↔ s.end_ ≤ time := by
  simp [segEnded]

theorem findIdx?_spec {α : Type} {p : α → Bool} {l : List α} {i : ℕ}
    (hf : l.findIdx? p = some i) :
    ∃ hi : i < l.length, p (l.get ⟨i, hi⟩) = true ∧
      ∀ j (hj : j < l.length), j < i → p (l.get ⟨j, hj⟩) = false := by
  obtain ⟨hlen, hidx⟩ := List.findIdx?_eq_some_iff_findIdx_eq.mp hf
  obtain ⟨hp, hbefore⟩ := (List.findIdx_eq hlen).mp hidx
  exact ⟨hlen, by simpa using hp, fun j hj hji => by simpa using hbefore j hji⟩

theorem chain_head_le {l : List ZoomSegment} {a : ZoomSegment}
    (hv : ∀ s ∈ a :: l, s.start < s.end_)
    (hc : List.Chain' (fun x y => x.end_ ≤ y.start) (a :: l)) :
    ∀ b ∈ l, a.end_ ≤ b.start := by
  induction l generalizing a with
  | nil => simp
  | cons c l ih =>
    intro b hb
    have hac : a.end_ ≤ c.start := (List.chain'_cons.mp hc).1
    rcases List.mem_cons.mp hb with rfl | hb
    · exact hac
    · have h1 : c.start < c.end_ := hv c (by simp)
      have h2 : c.end_ ≤ b.start := by
        refine ih ?_ (List.chain'_cons.mp hc).2 b hb
        intro s hs
        exact hv s (List.mem_cons_of_mem a hs)
      linarith

theorem wf_pairwise {l : List ZoomSegment} :
    WellFormed l → List.Pairwise (fun a b => a.end_ ≤ b.start) l := by
  induction l with
  | nil => intro _; simp
  | cons a l ih =>
    rintro ⟨hv, hc⟩
    exact List.Pairwise.cons (chain_head_le hv hc)
      (ih ⟨fun s hs => hv s (List.mem_cons_of_mem a hs), hc.tail⟩)

theorem wf_sep_get {l : List ZoomSegment} (h : WellFormed l) {i j : ℕ}
    (hi : i < l.length) (hj : j < l.length) (hij : i < j) :
    (l.get ⟨i, hi⟩).end_ ≤ (l.get ⟨j, hj⟩).start :=
  List.pairwise_iff_get.mp (wf_pairwise h) ⟨i, hi⟩ ⟨j, hj⟩ hij

theorem wf_end_le_end {l : List ZoomSegment} (h : WellFormed l) {i j : ℕ}
    (hi : i < l.length) (hj : j < l.length) (hij : i ≤ j) :
    (l.get ⟨i, hi⟩).end_ ≤ (l.get ⟨j, hj⟩).end_ := by
  rcases Nat.eq_or_lt_of_le hij with rfl | hlt
  · exact le_refl _
  · have h1 := wf_sep_get h hi hj hlt
    have h2 : (l.get ⟨j, hj⟩).start < (l.get ⟨j, hj⟩).end_ := h.1 _ (l.get_mem _ _)
    linarith

theorem wf_start_lt_start {l : List ZoomSegment} (h : WellFormed l) {i j : ℕ}
    (hi : i < l.length) (hj : j < l.length) (hij : i < j) :
    (l.get ⟨i, hi⟩).start < (l.get ⟨j, hj⟩).start := by
  have h1 : (l.get ⟨i, hi⟩).start < (l.get ⟨i, hi⟩).end_ := h.1 _ (l.get_mem _ _)
  have h2 := wf_sep_get h hi hj hij
  linarith

theorem active_unique {l : List ZoomSegment} (h : WellFormed l) {time : ℚ} {i j : ℕ}
    (hi : i < l.length) (hj : j < l.length)
    (hai : segActive time (l.get ⟨i, hi⟩) = true)
    (haj : segActive time (l.get ⟨j, hj⟩) = true) : i = j := by
  rw [segActive_iff] at hai haj
  rcases lt_trichotomy i j with hij | rfl | hij
  · exact absurd (wf_sep_get h hi hj hij) (by push_neg; linarith [hai.2, haj.1])
  · rfl
  · exact absurd (wf_sep_get h hj hi hij) (by push_neg; linarith [haj.2, hai.1])

theorem cursor_segment_spec {time : ℚ} {l : List ZoomSegment} {s : ZoomSegment}
    (h : (SegmentsCursor.new time l).segment = some s) :
    s ∈ l ∧ s.start < time ∧ time ≤ s.end_ := by
  unfold SegmentsCursor.new at h
  rcases hf : l.findIdx? (segActive time) with _ | i <;> rw [hf] at h
  · simp at h
  · simp only at h
    obtain ⟨hi, hs⟩ := List.getElem?_eq_some.mp h
    obtain ⟨hi2, hp, _⟩ := findIdx?_spec hf
    rw [segActive_iff] at hp
    refine ⟨hs ▸ List.getElem_mem hi, hs ▸ ?_⟩
    simpa using hp

theorem cursor_segment_eq_some_iff {time : ℚ} {l : List ZoomSegment} (h : WellFormed l)
    {s : ZoomSegment} :
    (SegmentsCursor.new time l).segment = some s ↔
      s ∈ l ∧ s.start < time ∧ time ≤ s.end_ := by
  constructor
  · exact cursor_segment_spec
  · rintro ⟨hmem, h1, h2⟩
    obtain ⟨k, hk⟩ := List.mem_iff_get.mp hmem
    rcases hf : l.findIdx? (segActive time) with _ | i
    · exfalso
      have := List.findIdx?_eq_none_iff.mp hf s hmem
      simp [segActive, h1, h2] at this
    · obtain ⟨hi, hpi, _⟩ := findIdx?_spec hf
      have hik : i = k.1 := by
        refine active_unique h hi k.2 hpi ?_
        rw [segActive_iff]
        have : l.get ⟨k.1, k.2⟩ = s := hk
        rw [this]
        exact ⟨h1, h2⟩
      unfold SegmentsCursor.new
      rw [hf]
      simp only
      rw [List.getElem?_eq_getElem hi]
      have : l.get ⟨i, hi⟩ = s := by
        rw [← hk]
        congr 1
        exact Fin.ext hik
      simpa using this

theorem cursor_some_prev_spec {time : ℚ} {l : List ZoomSegment} {s p : ZoomSegment}
    (hs : (SegmentsCursor.new time l).segment = some s)
    (hp : (SegmentsCursor.new time l).prev_segment = some p) :
    ∃ i : ℕ, ∃ hi : i < l.length, ∃ _h0 : 0 < i,
      s = l.get ⟨i, hi⟩ ∧
        p = l.get ⟨i - 1, Nat.lt_of_le_of_lt (Nat.sub_le i 1) hi⟩ := by
  unfold SegmentsCursor.new at hs hp
  rcases hf : l.findIdx? (segActive time) with _ | i <;> rw [hf] at hs hp
  · simp at hs
  · simp only at hs hp
    obtain ⟨hi, hgs⟩ := List.getElem?_eq_some.mp hs
    by_cases h0 : i > 0
    · rw [if_pos h0] at hp
      obtain ⟨hi1, hgp⟩ := List.getElem?_eq_some.mp hp
      exact ⟨i, hi, h0, by simp [← hgs], by simp [← hgp]⟩
    · rw [if_neg h0] at hp
      exact absurd hp (by simp)

theorem cursor_some_prev_none_spec {time : ℚ} {l : List ZoomSegment} {s : ZoomSegment}
    (hs : (SegmentsCursor.new time l).segment = some s)
    (hp : (SegmentsCursor.new time l).prev_segment = none) :
    ∃ hi : 0 < l.length, s = l.get ⟨0, hi⟩ := by
  unfold SegmentsCursor.new at hs hp
  rcases hf : l.findIdx? (segActive time) with _ | i <;> rw [hf] at hs hp
  · simp at hs
  · simp only at hs hp
    obtain ⟨hi, hgs⟩ := List.getElem?_eq_some.mp hs
    by_cases h0 : i > 0
    · rw [if_pos h0] at hp
      rw [List.getElem?_eq_getElem (Nat.lt_of_le_of_lt (Nat.sub_le i 1) hi)] at hp
      exact absurd hp (by simp)
    · have hi0 : i = 0 := Nat.eq_zero_of_not_pos h0
      subst hi0
      exact ⟨hi, by simp [← hgs]⟩

theorem fuel_step_none_none {n : ℕ} {time : ℚ} {l : List ZoomSegment}
    {ev : Option CursorEvents} {ei eo : ℚ → ℚ}
    (hp : (SegmentsCursor.new time l).prev_segment = none)
    (hs : (SegmentsCursor.new time l).segment = none) :
    InterpolatedZoom.new_with_easing_fuel (n + 1) time l ev ei eo =
      ⟨0, SegmentBounds.default⟩ := by
  simp only [InterpolatedZoom.new_with_easing_fuel]
  rw [hp, hs]

theorem fuel_step_some_none {n : ℕ} {time : ℚ} {l : List ZoomSegment}
    {ev : Option CursorEvents} {ei eo : ℚ → ℚ} {prev : ZoomSegment}
    (hp : (SegmentsCursor.new time l).prev_segment = some prev)
    (hs : (SegmentsCursor.new time l).segment = none) :
    InterpolatedZoom.new_with_easing_fuel (n + 1) time l ev ei eo =
      ⟨1 - eo (t_clamp ((time - prev.end_) / ZOOM_DURATION)),
        lerpBounds (SegmentBounds.from_segment prev time ev) SegmentBounds.default
          (eo (t_clamp ((time - prev.end_) / ZOOM_DURATION)))⟩ := by
  simp only [InterpolatedZoom.new_with_easing_fuel]
  rw [hp, hs]
  simp [lerpBounds, SegmentsCursor.new_time]

theorem fuel_step_none_some {n : ℕ} {time : ℚ} {l : List ZoomSegment}
    {ev : Option CursorEvents} {ei eo : ℚ → ℚ} {cur : ZoomSegment}
    (hp : (SegmentsCursor.new time l).prev_segment = none)
    (hs : (SegmentsCursor.new time l).segment = some cur) :
    InterpolatedZoom.new_with_easing_fuel (n + 1) time l ev ei eo =
      ⟨ei (t_clamp ((time - cur.start) / ZOOM_DURATION)),
        lerpBounds SegmentBounds.default (SegmentBounds.from_segment cur time ev)
          (ei (t_clamp ((time - cur.start) / ZOOM_DURATION)))⟩ := by
  simp only [InterpolatedZoom.new_with_easing_fuel]
  rw [hp, hs]
  simp [lerpBounds, SegmentsCursor.new_time]

theorem fuel_step_no_gap {n : ℕ} {time : ℚ} {l : List ZoomSegment}
    {ev : Option CursorEvents} {ei eo : ℚ → ℚ} {prev cur : ZoomSegment}
    (hp : (SegmentsCursor.new time l).prev_segment = some prev)
    (hs : (SegmentsCursor.new time l).segment = some cur)
    (heq : cur.start = prev.end_) :
    InterpolatedZoom.new_with_easing_fuel (n + 1) time l ev ei eo =
      ⟨1, lerpBounds (SegmentBounds.from_segment prev time ev)
          (SegmentBounds.from_segment cur time ev)
          (ei (t_clamp ((time - cur.start) / ZOOM_DURATION)))⟩ := by
  simp only [InterpolatedZoom.new_with_easing_fuel]
  rw [hp, hs]
  simp [lerpBounds, SegmentsCursor.new_time, heq]

theorem fuel_step_small_gap {n : ℕ} {time : ℚ} {l : List ZoomSegment}
    {ev : Option CursorEvents} {ei eo : ℚ → ℚ} {prev cur : ZoomSegment}
    (hp : (SegmentsCursor.new time l).prev_segment = some prev)
    (hs : (SegmentsCursor.new time l).segment = some cur)
    (hne : ¬ cur.start = prev.end_)
    (hlt : cur.start - prev.end_ < ZOOM_DURATION) :
    InterpolatedZoom.new_with_easing_fuel (n + 1) time l ev ei eo =
      ⟨(InterpolatedZoom.new_with_easing_fuel n cur.start l ev ei eo).t *
          (1 - ei (t_clamp ((time - cur.start) / ZOOM_DURATION))) +
          ei (t_clamp ((time - cur.start) / ZOOM_DURATION)),
        lerpBounds (InterpolatedZoom.new_with_easing_fuel n cur.start l ev ei eo).bounds
          (SegmentBounds.from_segment cur time ev)
          (ei (t_clamp ((time - cur.start) / ZOOM_DURATION)))⟩ := by
  simp only [InterpolatedZoom.new_with_easing_fuel]
  rw [hp, hs]
  simp [lerpBounds, SegmentsCursor.new_time, SegmentsCursor.new_segments, hne, hlt]

theorem fuel_step_large_gap {n : ℕ} {time : ℚ} {l : List ZoomSegment}
    {ev : Option CursorEvents} {ei eo : ℚ → ℚ} {prev cur : ZoomSegment}
    (hp : (SegmentsCursor.new time l).prev_segment = some prev)
    (hs : (SegmentsCursor.new time l).segment = some cur)
    (hne : ¬ cur.start = prev.end_)
    (hge : ¬ cur.start - prev.end_ < ZOOM_DURATION) :
    InterpolatedZoom.new_with_easing_fuel (n + 1) time l ev ei eo =
      ⟨ei (t_clamp ((time - cur.start) / ZOOM_DURATION)),
        lerpBounds SegmentBounds.default (SegmentBounds.from_segment cur time ev)
          (ei (t_clamp ((time - cur.start) / ZOOM_DURATION)))⟩ := by
  simp only [InterpolatedZoom.new_with_easing_fuel]
  rw [hp, hs]
  simp [lerpBounds, SegmentsCursor.new_time, hne, hge]

theorem fuel_indep_of_no_current {time : ℚ} {l : List ZoomSegment}
    {ev : Option CursorEvents} {ei eo : ℚ → ℚ}
    (hs : (SegmentsCursor.new time l).segment = none) (n m : ℕ) :
    InterpolatedZoom.new_with_easing_fuel (n + 1) time l ev ei eo =
      InterpolatedZoom.new_with_easing_fuel (m + 1) time l ev ei eo := by
  rcases hp : (SegmentsCursor.new time l).prev_segment with _ | prev
  · rw [fuel_step_none_none hp hs, fuel_step_none_none hp hs]
  · rw [fuel_step_some_none hp hs, fuel_step_some_none hp hs]

theorem inner_cursor_none {time : ℚ} {l : List ZoomSegment} (h : WellFormed l)
    {prev cur : ZoomSegment}
    (hs : (SegmentsCursor.new time l).segment = some cur)
    (hp : (SegmentsCursor.new time l).prev_segment = some prev)
    (hgap : prev.end_ < cur.start) :
    (SegmentsCursor.new cur.start l).segment = none := by
  rcases hq : (SegmentsCursor.new cur.start l).segment with _ | s
  · rfl
  · exfalso
    obtain ⟨hmem, h1, h2⟩ := cursor_segment_spec hq
    obtain ⟨i, hi, h0, hcur, hprev⟩ := cursor_some_prev_spec hs hp
    obtain ⟨k, hk⟩ := List.mem_iff_get.mp hmem
    rcases lt_trichotomy k.1 i with hki | hki | hki
    · have hk1 : k.1 ≤ i - 1 := by omega
      have hle := wf_end_le_end h k.2 (Nat.lt_of_le_of_lt (Nat.sub_le i 1) hi) hk1
      rw [← hprev, hk] at hle
      linarith
    · have he : l.get k = l.get ⟨i, hi⟩ := by
        congr 1
        exact Fin.ext hki
      rw [hk, ← hcur] at he
      rw [he] at h1
      exact lt_irrefl _ h1
    · have hsep := wf_sep_get h hi k.2 hki
      rw [← hcur, hk] at hsep
      have hv : cur.start < cur.end_ := h.1 cur (hcur ▸ l.get_mem _ _)
      linarith

theorem fuel_two_suffices {l : List ZoomSegment} (h : WellFormed l)
    (time : ℚ) (ev : Option CursorEvents) (ei eo : ℚ → ℚ) (n : ℕ) :
    InterpolatedZoom.new_with_easing_fuel (n + 2) time l ev ei eo =
      InterpolatedZoom.new_with_easing_fuel 2 time l ev ei eo := by
  have e1 : n + 2 = (n + 1) + 1 := rfl
  have e2 : 2 = 1 + 1 := rfl
  rw [e1, e2]
  rcases hp : (SegmentsCursor.new time l).prev_segment with _ | prev
    <;> rcases hs : (SegmentsCursor.new time l).segment with _ | cur
  · rw [fuel_step_none_none hp hs, fuel_step_none_none hp hs]
  · rw [fuel_step_none_some hp hs, fuel_step_none_some hp hs]
  · rw [fuel_step_some_none hp hs, fuel_step_some_none hp hs]
  · by_cases heq : cur.start = prev.end_
    · rw [fuel_step_no_gap hp hs heq, fuel_step_no_gap hp hs heq]
    · by_cases hlt : cur.start - prev.end_ < ZOOM_DURATION
      · rw [fuel_step_small_gap hp hs heq hlt, fuel_step_small_gap hp hs heq hlt]
        have hgap : prev.end_ < cur.start := by
          obtain ⟨i, hi, h0, hcur, hprev⟩ := cursor_some_prev_spec hs hp
          have hle := wf_sep_get h (Nat.lt_of_le_of_lt (Nat.sub_le i 1) hi) hi
            (by omega)
          rw [← hcur, ← hprev] at hle
          exact lt_of_le_of_ne hle (fun e => heq e.symm)
        have hnone := inner_cursor_none h hs hp hgap
        rw [show (1 : ℕ) = 0 + 1 from rfl, fuel_indep_of_no_current hnone n 0]
      · rw [fuel_step_large_gap hp hs heq hlt, fuel_step_large_gap hp hs heq hlt]

theorem wf_get_inj {l : List ZoomSegment} (h : WellFormed l) {i j : ℕ}
    (hi : i < l.length) (hj : j < l.length)
    (he : l.get ⟨i, hi⟩ = l.get ⟨j, hj⟩) : i = j := by
  rcases lt_trichotomy i j with hij | hij | hij
  · have := wf_start_lt_start h hi hj hij
    rw [he] at this
    exact absurd this (lt_irrefl _)
  · exact hij
  · have := wf_start_lt_start h hj hi hij
    rw [he] at this
    exact absurd this (lt_irrefl _)

theorem wf_append_left {l : List ZoomSegment} {a : ZoomSegment}
    (h : WellFormed (l ++ [a])) : WellFormed l := by
  refine ⟨fun s hs => h.1 s (by simp [hs]), ?_⟩
  exact (List.chain'_append.mp h.2).1

theorem find_rev_max {time : ℚ} {l : List ZoomSegment} (h : WellFormed l)
    {p : ZoomSegment} :
    l.reverse.find? (segEnded time) = some p ↔
      p ∈ l ∧ p.end_ ≤ time ∧ ∀ q ∈ l, q.end_ ≤ time → q.end_ ≤ p.end_ := by
  induction l using List.reverseRecOn with
  | nil => simp
  | append_singleton l a ih =>
    have hsep : ∀ q ∈ l, q.end_ ≤ a.start := by
      have := List.pairwise_append.mp (wf_pairwise h)
      intro q hq
      exact this.2.2 q hq a (by simp)
    have hva : a.start < a.end_ := h.1 a (by simp)
    rw [List.reverse_append]
    simp only [List.reverse_singleton, List.singleton_append]
    by_cases ha : a.end_ ≤ time
    · rw [List.find?_cons_of_pos _ (by simp [segEnded, ha])]
      constructor
      · rintro he
        have hpa : p = a := by
          have := Option.some.inj he
          exact this.symm
        subst hpa
        refine ⟨by simp, ha, ?_⟩
        intro q hq hqt
        rcases List.mem_append.mp hq with hq | hq
        · have := hsep q hq
          linarith
        · simp at hq
          subst hq
          exact le_refl _
      · rintro ⟨hmem, hpt, hmax⟩
        have hpa : p = a := by
          rcases List.mem_append.mp hmem with hq | hq
          · exfalso
            have h1 := hsep p hq
            have h2 := hmax a (by simp) ha
            linarith
          · simpa using hq
        subst hpa
        rfl
    · rw [List.find?_cons_of_neg _ (by simp [segEnded, ha])]
      rw [ih (wf_append_left h)]
      constructor
      · rintro ⟨hmem, hpt, hmax⟩
        refine ⟨by simp [hmem], hpt, ?_⟩
        intro q hq hqt
        rcases List.mem_append.mp hq with hq | hq
        · exact hmax q hq hqt
        · simp at hq
          subst hq
          exact absurd hqt ha
      · rintro ⟨hmem, hpt, hmax⟩
        have hpl : p ∈ l := by
          rcases List.mem_append.mp hmem with hq | hq
          · exact hq
          · simp at hq
            subst hq
            exact absurd hpt ha
        refine ⟨hpl, hpt, ?_⟩
        intro q hq hqt
        exact hmax q (by simp [hq]) hqt

theorem cursor_none_prev_iff {time : ℚ} {l : List ZoomSegment} (h : WellFormed l)
    (hs : (SegmentsCursor.new time l).segment = none) {p : ZoomSegment} :
    (SegmentsCursor.new time l).prev_segment = some p ↔
      p ∈ l ∧ p.end_ ≤ time ∧ ∀ q ∈ l, q.end_ ≤ time → q.end_ ≤ p.end_ := by
  unfold SegmentsCursor.new at hs ⊢
  rcases hf : l.findIdx? (segActive time) with _ | i
  · exact find_rev_max h
  · exfalso
    rw [hf] at hs
    obtain ⟨hi, _, _⟩ := findIdx?_spec hf
    have hs2 : l[i]? = (none : Option ZoomSegment) := hs
    rw [List.getElem?_eq_getElem hi] at hs2
    exact absurd hs2 (by simp)

theorem cursor_some_spec_idx {time : ℚ} {l : List ZoomSegment} {s : ZoomSegment}
    (hs : (SegmentsCursor.new time l).segment = some s) :
    ∃ i : ℕ, ∃ hi : i < l.length, s = l.get ⟨i, hi⟩ ∧
      (SegmentsCursor.new time l).prev_segment =
        (if _h0 : 0 < i then some (l.get ⟨i - 1, Nat.lt_of_le_of_lt (Nat.sub_le i 1) hi⟩)
          else none) := by
  unfold SegmentsCursor.new at hs ⊢
  rcases hf : l.findIdx? (segActive time) with _ | i
  · rw [hf] at hs
    exact absurd hs (by simp)
  · rw [hf] at hs
    have hs2 : l[i]? = some s := hs
    obtain ⟨hi, hgs⟩ := List.getElem?_eq_some.mp hs2
    refine ⟨i, hi, by simp [← hgs], ?_⟩
    show (if i > 0 then l[i - 1]? else none) = _
    by_cases h0 : 0 < i
    · rw [if_pos h0, dif_pos h0]
      rw [List.getElem?_eq_getElem (Nat.lt_of_le_of_lt (Nat.sub_le i 1) hi)]
      simp
    · rw [if_neg h0, dif_neg h0]

theorem XY.ext_points {a b : XY} (hx : a.x = b.x) (hy : a.y = b.y) : a = b := by
  cases a
  cases b
  simp_all

theorem SegmentBounds.ext_corners {a b : SegmentBounds}
    (h1 : a.top_left.x = b.top_left.x) (h2 : a.top_left.y = b.top_left.y)
    (h3 : a.bottom_right.x = b.bottom_right.x)
    (h4 : a.bottom_right.y = b.bottom_right.y) : a = b := by
  cases a
  cases b
  simp_all
  exact ⟨XY.ext_points h1 h2, XY.ext_points h3 h4⟩

@[simp]
theorem lerpBounds_tl_x (a b : SegmentBounds) (f : ℚ) :
    (lerpBounds a b f).top_left.x = a.top_left.x * (1 - f) + b.top_left.x * f := rfl

@[simp]
theorem lerpBounds_tl_y (a b : SegmentBounds) (f : ℚ) :
    (lerpBounds a b f).top_left.y = a.top_left.y * (1 - f) + b.top_left.y * f := rfl

@[simp]
theorem lerpBounds_br_x (a b : SegmentBounds) (f : ℚ) :
    (lerpBounds a b f).bottom_right.x = a.bottom_right.x * (1 - f) + b.bottom_right.x * f := rfl

@[simp]
theorem lerpBounds_br_y (a b : SegmentBounds) (f : ℚ) :
    (lerpBounds a b f).bottom_right.y = a.bottom_right.y * (1 - f) + b.bottom_right.y * f := rfl

@[simp]
theorem default_tl_x : SegmentBounds.default.top_left.x = 0 := rfl

@[simp]
theorem default_tl_y : SegmentBounds.default.top_left.y = 0 := rfl

@[simp]
theorem default_br_x : SegmentBounds.default.bottom_right.x = 1 := rfl

@[simp]
theorem default_br_y : SegmentBounds.default.bottom_right.y = 1 := rfl

theorem lerpBounds_one (a b : SegmentBounds) : lerpBounds a b 1 = b := by
  apply SegmentBounds.ext_corners <;> simp

theorem lerpBounds_zero (a b : SegmentBounds) : lerpBounds a b 0 = a := by
  apply SegmentBounds.ext_corners <;> simp

theorem t_clamp_nonneg (v : ℚ) : 0 ≤ t_clamp v :=
  le_min (le_max_right v 0) zero_le_one

theorem t_clamp_le_one (v : ℚ) : t_clamp v ≤ 1 := min_le_right _ _

theorem t_clamp_of_one_le {v : ℚ} (h : 1 ≤ v) : t_clamp v = 1 := by
  unfold t_clamp
  rw [max_eq_left (le_trans zero_le_one h), min_eq_right h]

theorem t_clamp_of_mem {v : ℚ} (h0 : 0 ≤ v) (h1 : v ≤ 1) : t_clamp v = v := by
  unfold t_clamp
  rw [max_eq_left h0, min_eq_left h1]

theorem from_segment_manual {s : ZoomSegment} {x y : ℚ} (h : s.mode = ZoomMode.manual x y)
    (t : ℚ) (ev : Option CursorEvents) :
    SegmentBounds.from_segment s t ev =
      SegmentBounds.new ⟨0 - (x * s.amount - x), 0 - (y * s.amount - y)⟩
        ⟨s.amount - (x * s.amount - x), s.amount - (y * s.amount - y)⟩ := by
  unfold SegmentBounds.from_segment
  rw [h]

theorem from_segment_events_irrel {s : ZoomSegment} {x y : ℚ}
    (h : s.mode = ZoomMode.manual x y) (t : ℚ) (ev : Option CursorEvents) :
    SegmentBounds.from_segment s t ev = SegmentBounds.from_segment s t none := by
  rw [from_segment_manual h, from_segment_manual h]

theorem from_segment_square {s : ZoomSegment} (t : ℚ) (ev : Option CursorEvents) :
    (SegmentBounds.from_segment s t ev).bottom_right.x -
        (SegmentBounds.from_segment s t ev).top_left.x = s.amount ∧
      (SegmentBounds.from_segment s t ev).bottom_right.y -
        (SegmentBounds.from_segment s t ev).top_left.y = s.amount := by
  unfold SegmentBounds.from_segment
  constructor <;> simp [SegmentBounds.new] <;> ring

/-! ## Claim theorems -/

/-- C7: for every segment, time and optional cursor track, `bounds_for` returns the
rectangle `top_left = (0,0) - diff`, `bottom_right = (amount, amount) - diff` with
`diff = focus*amount - focus` componentwise, the focus point being the fixed `(x, y)` for
Manual mode regardless of time, the resolver's result for Auto mode when a track is
present, and `(0.5, 0.5)` when the track is absent or the resolver returns `none`. -/
theorem C7_bounds_for_formula (segment : ZoomSegment) (time : ℚ)
    (track : Option CursorEvents) :
    SegmentBounds.from_segment segment time track =
      (let focus : ℚ × ℚ :=
        match segment.mode, track with
        | ZoomMode.manual x y, _ => (x, y)
        | ZoomMode.auto, some ev =>
            (get_smoothed_cursor_position ev time CURSOR_SMOOTHING_WINDOW).getD (1 / 2, 1 / 2)
        | ZoomMode.auto, none => (1 / 2, 1 / 2)
      let diff : ℚ × ℚ :=
        (focus.1 * segment.amount - focus.1, focus.2 * segment.amount - focus.2)
      SegmentBounds.new ⟨0 - diff.1, 0 - diff.2⟩
        ⟨segment.amount - diff.1, segment.amount - diff.2⟩) := by
  unfold SegmentBounds.from_segment
  cases hm : segment.mode with
  | auto =>
    cases track with
    | none => rfl
    | some ev =>
      cases hg : get_smoothed_cursor_position ev time CURSOR_SMOOTHING_WINDOW with
      | none => simp [hg]
      | some pos => simp [hg]
  | manual x y => rfl

/-- C3: for every time and sorted, non-overlapping segment list, the locator returns as
`current` exactly the segment with `start < time ≤ end` (at `time = start` the segment is
not current); `previous` is the index-predecessor when `current` exists (`none` when
`current` is the head) and otherwise the segment with the greatest `end ≤ time`. -/
theorem C3_locator (time : ℚ) (l : List ZoomSegment) (h : WellFormed l) :
    (∀ s : ZoomSegment,
      (SegmentsCursor.new time l).segment = some s ↔
        s ∈ l ∧ s.start < time ∧ time ≤ s.end_) ∧
    (∀ i : ℕ, ∀ hi : i + 1 < l.length,
      (SegmentsCursor.new time l).segment = some (l.get ⟨i + 1, hi⟩) →
        (SegmentsCursor.new time l).prev_segment =
          some (l.get ⟨i, Nat.lt_of_succ_lt hi⟩)) ∧
    (∀ hi : 0 < l.length,
      (SegmentsCursor.new time l).segment = some (l.get ⟨0, hi⟩) →
        (SegmentsCursor.new time l).prev_segment = none) ∧
    ((SegmentsCursor.new time l).segment = none →
      ∀ p : ZoomSegment,
        (SegmentsCursor.new time l).prev_segment = some p ↔
          p ∈ l ∧ p.end_ ≤ time ∧ ∀ q ∈ l, q.end_ ≤ time → q.end_ ≤ p.end_) := by
  refine ⟨fun s => cursor_segment_eq_some_iff h, ?_, ?_, fun hs p => cursor_none_prev_iff h hs⟩
  · intro i hi hseg
    obtain ⟨j, hj, hsj, hprev⟩ := cursor_some_spec_idx hseg
    have hij : i + 1 = j := wf_get_inj h hi hj hsj
    subst hij
    rw [hprev, dif_pos (by omega)]
    rfl
  · intro hi hseg
    obtain ⟨j, hj, hsj, hprev⟩ := cursor_some_spec_idx hseg
    have hij : 0 = j := wf_get_inj h hi hj hsj
    subst hij
    rw [hprev, dif_neg (by omega)]

/-- Witness for C3 at `time = 3` on the demo segment list. -/
theorem C3_locator_witness :
    WellFormed segsDemo ∧
      ((SegmentsCursor.new 3 segsDemo).segment =
          some ⟨2, 4, 2, ZoomMode.manual (1 / 2) (1 / 2)⟩ ↔
        (⟨2, 4, 2, ZoomMode.manual (1 / 2) (1 / 2)⟩ : ZoomSegment) ∈ segsDemo ∧
          (2 : ℚ) < 3 ∧ (3 : ℚ) ≤ 4) :=
  ⟨by decide, (C3_locator 3 segsDemo (by decide)).1 _⟩

/-- C4: when the locator yields `previous = some prev` and `current = none`, interpolate
returns `t = 1 - zoom_t` and `bounds = lerp(bounds_for(prev, time, track), default, zoom_t)`
with `zoom_t = ease_out(clamp01((time - prev.end)/ZOOM_DURATION))` (the focus of `prev`
re-resolved at the query time); with `ease_out 1 = 1`, at `time = prev.end + ZOOM_DURATION`
with no successor segment active the result is `t = 0`, `bounds = ((0,0),(1,1))`. -/
theorem C4_zoom_out_tail (time : ℚ) (l : List ZoomSegment) (ev : Option CursorEvents)
    (ei eo : ℚ → ℚ) (prev : ZoomSegment) :
    ((SegmentsCursor.new time l).prev_segment = some prev →
      (SegmentsCursor.new time l).segment = none →
      InterpolatedZoom.new_with_easing time l ev ei eo =
        ⟨1 - eo (t_clamp ((time - prev.end_) / ZOOM_DURATION)),
          lerpBounds (SegmentBounds.from_segment prev time ev) SegmentBounds.default
            (eo (t_clamp ((time - prev.end_) / ZOOM_DURATION)))⟩) ∧
    (eo 1 = 1 →
      (SegmentsCursor.new (prev.end_ + ZOOM_DURATION) l).prev_segment = some prev →
      (SegmentsCursor.new (prev.end_ + ZOOM_DURATION) l).segment = none →
      InterpolatedZoom.new_with_easing (prev.end_ + ZOOM_DURATION) l ev ei eo =
        ⟨0, SegmentBounds.default⟩) := by
  constructor
  · intro hp hs
    rw [InterpolatedZoom.new_with_easing, fuel_step_some_none hp hs]
  · intro heo hp hs
    rw [InterpolatedZoom.new_with_easing, fuel_step_some_none hp hs]
    have he : t_clamp ((prev.end_ + ZOOM_DURATION - prev.end_) / ZOOM_DURATION) = 1 := by
      rw [t_clamp_of_one_le]
      rw [ZOOM_DURATION]
      norm_num
    rw [he, heo, lerpBounds_one]
    norm_num

/-- Witness for C4 on the single short segment, at `time = 3` and at
`time = 2.5 + ZOOM_DURATION`. -/
theorem C4_zoom_out_tail_witness :
    InterpolatedZoom.new_with_easing 3 segsShort none id id =
      ⟨1 - id (t_clamp ((3 - 5 / 2) / ZOOM_DURATION)),
        lerpBounds
          (SegmentBounds.from_segment ⟨2, 5 / 2, 2, ZoomMode.manual (1 / 2) (1 / 2)⟩ 3 none)
          SegmentBounds.default (id (t_clamp ((3 - 5 / 2) / ZOOM_DURATION)))⟩ ∧
    InterpolatedZoom.new_with_easing (5 / 2 + ZOOM_DURATION) segsShort none id id =
      ⟨0, SegmentBounds.default⟩ :=
  ⟨(C4_zoom_out_tail 3 segsShort none id id
      ⟨2, 5 / 2, 2, ZoomMode.manual (1 / 2) (1 / 2)⟩).1 (by decide) (by decide),
    (C4_zoom_out_tail 3 segsShort none id id
      ⟨2, 5 / 2, 2, ZoomMode.manual (1 / 2) (1 / 2)⟩).2 rfl (by decide) (by decide)⟩

/-- C5: when the locator yields `previous = some prev` and `current = some cur` with
`cur.start = prev.end` (contiguous segments), interpolate returns constant `t = 1` and
`bounds = lerp(bounds_for(prev, time, track), bounds_for(cur, time, track), zoom_t)` with
`zoom_t = ease_in(clamp01((time - cur.start)/ZOOM_DURATION))`: only the rectangle blends. -/
theorem C5_contiguous (time : ℚ) (l : List ZoomSegment) (ev : Option CursorEvents)
    (ei eo : ℚ → ℚ) (prev cur : ZoomSegment)
    (hp : (SegmentsCursor.new time l).prev_segment = some prev)
    (hs : (SegmentsCursor.new time l).segment = some cur)
    (heq : cur.start = prev.end_) :
    InterpolatedZoom.new_with_easing time l ev ei eo =
      ⟨1, lerpBounds (SegmentBounds.from_segment prev time ev)
          (SegmentBounds.from_segment cur time ev)
          (ei (t_clamp ((time - cur.start) / ZOOM_DURATION)))⟩ := by
  rw [InterpolatedZoom.new_with_easing, fuel_step_no_gap hp hs heq]

/-- Witness for C5 on two adjacent segments at `time = 21/5`. -/
theorem C5_contiguous_witness :
    InterpolatedZoom.new_with_easing (21 / 5) segsAdj none id id =
      ⟨1, lerpBounds
          (SegmentBounds.from_segment ⟨2, 4, 2, ZoomMode.manual 0 0⟩ (21 / 5) none)
          (SegmentBounds.from_segment ⟨4, 6, 4, ZoomMode.manual (1 / 2) (1 / 2)⟩ (21 / 5) none)
          (id (t_clamp ((21 / 5 - 4) / ZOOM_DURATION)))⟩ :=
  C5_contiguous (21 / 5) segsAdj none id id ⟨2, 4, 2, ZoomMode.manual 0 0⟩
    ⟨4, 6, 4, ZoomMode.manual (1 / 2) (1 / 2)⟩ (by decide) (by decide) (by decide)

/-- C1: short-gap interrupted transition.  When the locator yields `previous = some prev`
and `current = some cur` with `0 < cur.start - prev.end < ZOOM_DURATION` on a sorted,
non-overlapping list with monotone easing, interpolate returns
`t = min.t * (1 - zoom_t) + zoom_t` and
`bounds = lerp(min.bounds, bounds_for(cur, time, track), zoom_t)` with
`zoom_t = ease_in(clamp01((time - cur.start)/ZOOM_DURATION))` and
`min = interpolate(cur.start, ...)`; and on the demo list with identity easing the three
spec values at times 4, 4.75 and 5.25 hold. -/
theorem C1_short_gap :
    (∀ (time : ℚ) (l : List ZoomSegment) (ev : Option CursorEvents) (ei eo : ℚ → ℚ)
      (prev cur : ZoomSegment),
      WellFormed l →
      (∀ a b : ℚ, 0 ≤ a → a ≤ b → b ≤ 1 → ei a ≤ ei b) →
      (∀ a b : ℚ, 0 ≤ a → a ≤ b → b ≤ 1 → eo a ≤ eo b) →
      (SegmentsCursor.new time l).prev_segment = some prev →
      (SegmentsCursor.new time l).segment = some cur →
      0 < cur.start - prev.end_ → cur.start - prev.end_ < ZOOM_DURATION →
      InterpolatedZoom.new_with_easing time l ev ei eo =
        ⟨(InterpolatedZoom.new_with_easing cur.start l ev ei eo).t *
            (1 - ei (t_clamp ((time - cur.start) / ZOOM_DURATION))) +
            ei (t_clamp ((time - cur.start) / ZOOM_DURATION)),
          lerpBounds (InterpolatedZoom.new_with_easing cur.start l ev ei eo).bounds
            (SegmentBounds.from_segment cur time ev)
            (ei (t_clamp ((time - cur.start) / ZOOM_DURATION)))⟩) ∧
    InterpolatedZoom.new_with_easing 4 segsDemo none id id =
      ⟨1, SegmentBounds.new ⟨-(1 / 2), -(1 / 2)⟩ ⟨3 / 2, 3 / 2⟩⟩ ∧
    InterpolatedZoom.new_with_easing (19 / 4) segsDemo none id id =
      ⟨1 / 4, SegmentBounds.new ⟨-(1 / 8), -(1 / 8)⟩ ⟨9 / 8, 9 / 8⟩⟩ ∧
    InterpolatedZoom.new_with_easing (21 / 4) segsDemo none id id =
      ⟨5 / 8, SegmentBounds.new ⟨-(13 / 16), -(13 / 16)⟩ ⟨29 / 16, 29 / 16⟩⟩ := by
  refine ⟨?_, by decide, by decide, by decide⟩
  intro time l ev ei eo prev cur h _ _ hp hs hgap hlt
  have hne : ¬ cur.start = prev.end_ := by
    intro e
    rw [e, sub_self] at hgap
    exact lt_irrefl 0 hgap
  rw [InterpolatedZoom.new_with_easing, fuel_step_small_gap hp hs hne hlt,
    InterpolatedZoom.new_with_easing]
  have hmem : cur ∈ l := (cursor_segment_spec hs).1
  have hlen : l.length = l.length - 1 + 1 := by
    have := List.length_pos.mpr (List.ne_nil_of_mem hmem)
    omega
  have hnone := inner_cursor_none h hs hp (by linarith)
  have e : InterpolatedZoom.new_with_easing_fuel l.length cur.start l ev ei eo =
      InterpolatedZoom.new_with_easing_fuel (l.length + 1) cur.start l ev ei eo := by
    rw [hlen]
    exact fuel_indep_of_no_current hnone (l.length - 1) (l.length - 1 + 1)
  rw [e]

/-- Witness for C1's general clause at `time = 21/4` on the demo list. -/
theorem C1_short_gap_witness :
    InterpolatedZoom.new_with_easing (21 / 4) segsDemo none id id =
      ⟨(InterpolatedZoom.new_with_easing (19 / 4) segsDemo none id id).t *
          (1 - id (t_clamp ((21 / 4 - 19 / 4) / ZOOM_DURATION))) +
          id (t_clamp ((21 / 4 - 19 / 4) / ZOOM_DURATION)),
        lerpBounds (InterpolatedZoom.new_with_easing (19 / 4) segsDemo none id id).bounds
          (SegmentBounds.from_segment ⟨19 / 4, 6, 4, ZoomMode.manual (1 / 2) (1 / 2)⟩
            (21 / 4) none)
          (id (t_clamp ((21 / 4 - 19 / 4) / ZOOM_DURATION)))⟩ :=
  C1_short_gap.1 (21 / 4) segsDemo none id id ⟨2, 4, 2, ZoomMode.manual (1 / 2) (1 / 2)⟩
    ⟨19 / 4, 6, 4, ZoomMode.manual (1 / 2) (1 / 2)⟩ (by decide)
    (fun a b _ hab _ => hab) (fun a b _ hab _ => hab) (by decide) (by decide)
    (by decide) (by decide)

/-- C2 fails as stated: for the single segment `(2, 2.5, amount 2, Manual(.5,.5))`, whose
duration is shorter than `ZOOM_DURATION`, with identity easing (monotone on `[0,1]` with
`ease_in 1 = 1`), interpolate at `time = segment.end = 2.5` returns `t = 1/2`, not `1`. -/
theorem C2_at_end_counterexample :
    WellFormed segsShort ∧
      (⟨2, 5 / 2, 2, ZoomMode.manual (1 / 2) (1 / 2)⟩ : ZoomSegment) ∈ segsShort ∧
      (InterpolatedZoom.new_with_easing (5 / 2) segsShort none id id).t = 1 / 2 ∧
      ¬ (InterpolatedZoom.new_with_easing (5 / 2) segsShort none id id).t = 1 := by
  exact ⟨by decide, by decide, by decide, by decide⟩

/-- C2 amended: for every sorted, non-overlapping segment list, every segment in it whose
duration is at least `ZOOM_DURATION`, and every cursor track, provided
`ease_in 1 = 1`, interpolate evaluated at `time = segment.end` returns `t = 1` and
`bounds = bounds_for(segment, time, track)`. -/
theorem C2_at_end_amended (l : List ZoomSegment) (cur : ZoomSegment)
    (ev : Option CursorEvents) (ei eo : ℚ → ℚ) (h : WellFormed l) (hmem : cur ∈ l)
    (hdur : ZOOM_DURATION ≤ cur.end_ - cur.start) (hei : ei 1 = 1) :
    InterpolatedZoom.new_with_easing cur.end_ l ev ei eo =
      ⟨1, SegmentBounds.from_segment cur cur.end_ ev⟩ := by
  have hstart : cur.start < cur.end_ := h.1 cur hmem
  have hs : (SegmentsCursor.new cur.end_ l).segment = some cur :=
    (cursor_segment_eq_some_iff h).mpr ⟨hmem, hstart, le_refl _⟩
  have harg : (1 : ℚ) ≤ (cur.end_ - cur.start) / ZOOM_DURATION := by
    rw [ZOOM_DURATION] at hdur ⊢
    rw [div_one]
    linarith
  have hz : ei (t_clamp ((cur.end_ - cur.start) / ZOOM_DURATION)) = 1 := by
    rw [t_clamp_of_one_le harg, hei]
  rcases hp : (SegmentsCursor.new cur.end_ l).prev_segment with _ | prev
  · rw [InterpolatedZoom.new_with_easing, fuel_step_none_some hp hs, hz, lerpBounds_one]
  · by_cases heq : cur.start = prev.end_
    · rw [InterpolatedZoom.new_with_easing, fuel_step_no_gap hp hs heq, hz, lerpBounds_one]
    · by_cases hlt : cur.start - prev.end_ < ZOOM_DURATION
      · rw [InterpolatedZoom.new_with_easing, fuel_step_small_gap hp hs heq hlt, hz,
          lerpBounds_one]
        norm_num
      · rw [InterpolatedZoom.new_with_easing, fuel_step_large_gap hp hs heq hlt, hz,
          lerpBounds_one]

/-- Witness for the amended C2 at the first demo segment, whose duration is 2. -/
theorem C2_at_end_amended_witness :
    InterpolatedZoom.new_with_easing 4 segsDemo none id id =
      ⟨1, SegmentBounds.from_segment ⟨2, 4, 2, ZoomMode.manual (1 / 2) (1 / 2)⟩ 4 none⟩ :=
  C2_at_end_amended segsDemo ⟨2, 4, 2, ZoomMode.manual (1 / 2) (1 / 2)⟩ none id id
    (by decide) (by decide) (by decide) rfl

/-- C9: on a sorted, non-overlapping list, the recursive invocation made in the short-gap
branch (at `time = current.start`) finds no current segment, so it cannot itself reach the
short-gap branch: the recursion depth is at most 1 — fuel 2 computes the same result as any
larger fuel, and in particular as the `segments.length + 1` fuel used by the engine, so
every call terminates. -/
theorem C9_recursion_depth (time : ℚ) (l : List ZoomSegment) (ev : Option CursorEvents)
    (ei eo : ℚ → ℚ) (h : WellFormed l) :
    (∀ prev cur : ZoomSegment,
      (SegmentsCursor.new time l).prev_segment = some prev →
      (SegmentsCursor.new time l).segment = some cur →
      0 < cur.start - prev.end_ → cur.start - prev.end_ < ZOOM_DURATION →
      (SegmentsCursor.new cur.start l).segment = none) ∧
    (∀ n : ℕ,
      InterpolatedZoom.new_with_easing_fuel (n + 2) time l ev ei eo =
        InterpolatedZoom.new_with_easing_fuel 2 time l ev ei eo) ∧
    InterpolatedZoom.new_with_easing time l ev ei eo =
      InterpolatedZoom.new_with_easing_fuel 2 time l ev ei eo := by
  refine ⟨?_, fuel_two_suffices h time ev ei eo, ?_⟩
  · intro prev cur hp hs h1 h2
    exact inner_cursor_none h hs hp (by linarith)
  · rcases Nat.eq_zero_or_pos l.length with h0 | h0
    · have hl : l = [] := List.length_eq_zero.mp h0
      subst hl
      have hp : (SegmentsCursor.new time ([] : List ZoomSegment)).prev_segment = none := rfl
      have hs : (SegmentsCursor.new time ([] : List ZoomSegment)).segment = none := rfl
      rw [InterpolatedZoom.new_with_easing, fuel_step_none_none hp hs,
        show (2 : ℕ) = 1 + 1 from rfl, fuel_step_none_none hp hs]
    · have e : l.length + 1 = (l.length - 1) + 2 := by omega
      rw [InterpolatedZoom.new_with_easing, e, fuel_two_suffices h]

/-- Witness for C9 on the demo list at `time = 21/4`. -/
theorem C9_recursion_depth_witness :
    (SegmentsCursor.new (19 / 4) segsDemo).segment = none ∧
      InterpolatedZoom.new_with_easing_fuel 7 (21 / 4) segsDemo none id id =
        InterpolatedZoom.new_with_easing_fuel 2 (21 / 4) segsDemo none id id ∧
      InterpolatedZoom.new_with_easing (21 / 4) segsDemo none id id =
        InterpolatedZoom.new_with_easing_fuel 2 (21 / 4) segsDemo none id id :=
  have hC := C9_recursion_depth (21 / 4) segsDemo none id id (by decide)
  ⟨hC.1 ⟨2, 4, 2, ZoomMode.manual (1 / 2) (1 / 2)⟩
      ⟨19 / 4, 6, 4, ZoomMode.manual (1 / 2) (1 / 2)⟩ (by decide) (by decide) (by decide)
      (by decide),
    hC.2.1 5, hC.2.2⟩

theorem cursor_prev_mem {time : ℚ} {l : List ZoomSegment} {p : ZoomSegment}
    (hp : (SegmentsCursor.new time l).prev_segment = some p) : p ∈ l := by
  unfold SegmentsCursor.new at hp
  rcases hf : l.findIdx? (segActive time) with _ | i
  · rw [hf] at hp
    have hp2 : l.reverse.find? (segEnded time) = some p := hp
    exact List.mem_reverse.mp (List.mem_of_find?_eq_some hp2)
  · rw [hf] at hp
    have hp2 : (if i > 0 then l[i - 1]? else none) = some p := hp
    by_cases h0 : i > 0
    · rw [if_pos h0] at hp2
      obtain ⟨hlt, he⟩ := List.getElem?_eq_some.mp hp2
      exact he ▸ List.getElem_mem hlt
    · rw [if_neg h0] at hp2
      cases hp2

theorem lerp_square {a b : SegmentBounds} {f : ℚ}
    (ha1 : a.bottom_right.x - a.top_left.x = a.bottom_right.y - a.top_left.y)
    (ha2 : 1 ≤ a.bottom_right.x - a.top_left.x)
    (hb1 : b.bottom_right.x - b.top_left.x = b.bottom_right.y - b.top_left.y)
    (hb2 : 1 ≤ b.bottom_right.x - b.top_left.x)
    (hf0 : 0 ≤ f) (hf1 : f ≤ 1) :
    ((lerpBounds a b f).bottom_right.x - (lerpBounds a b f).top_left.x =
      (lerpBounds a b f).bottom_right.y - (lerpBounds a b f).top_left.y) ∧
    1 ≤ (lerpBounds a b f).bottom_right.x - (lerpBounds a b f).top_left.x := by
  simp only [lerpBounds_br_x, lerpBounds_tl_x, lerpBounds_br_y, lerpBounds_tl_y]
  constructor
  · have e1 : (a.bottom_right.x - a.top_left.x) * (1 - f) =
        (a.bottom_right.y - a.top_left.y) * (1 - f) := by rw [ha1]
    have e2 : (b.bottom_right.x - b.top_left.x) * f =
        (b.bottom_right.y - b.top_left.y) * f := by rw [hb1]
    linarith [e1, e2]
  · have h1 : 1 * (1 - f) ≤ (a.bottom_right.x - a.top_left.x) * (1 - f) :=
      mul_le_mul_of_nonneg_right ha2 (by linarith)
    have h2 : 1 * f ≤ (b.bottom_right.x - b.top_left.x) * f :=
      mul_le_mul_of_nonneg_right hb2 hf0
    linarith

theorem invariant_square_fuel (l : List ZoomSegment) (ev : Option CursorEvents)
    (ei eo : ℚ → ℚ) (hamt : ∀ s ∈ l, 1 ≤ s.amount)
    (hei : ∀ u : ℚ, 0 ≤ u → u ≤ 1 → 0 ≤ ei u ∧ ei u ≤ 1)
    (heo : ∀ u : ℚ, 0 ≤ u → u ≤ 1 → 0 ≤ eo u ∧ eo u ≤ 1) :
    ∀ (n : ℕ) (time : ℚ),
      ((InterpolatedZoom.new_with_easing_fuel n time l ev ei eo).bounds.bottom_right.x -
          (InterpolatedZoom.new_with_easing_fuel n time l ev ei eo).bounds.top_left.x =
        (InterpolatedZoom.new_with_easing_fuel n time l ev ei eo).bounds.bottom_right.y -
          (InterpolatedZoom.new_with_easing_fuel n time l ev ei eo).bounds.top_left.y) ∧
      1 ≤ (InterpolatedZoom.new_with_easing_fuel n time l ev ei eo).bounds.bottom_right.x -
          (InterpolatedZoom.new_with_easing_fuel n time l ev ei eo).bounds.top_left.x := by
  intro n
  induction n with
  | zero =>
    intro time
    constructor <;> norm_num [InterpolatedZoom.new_with_easing_fuel]
  | succ n ih =>
    intro time
    have hdef1 : SegmentBounds.default.bottom_right.x - SegmentBounds.default.top_left.x =
        SegmentBounds.default.bottom_right.y - SegmentBounds.default.top_left.y := by
      norm_num
    have hdef2 : (1 : ℚ) ≤
        SegmentBounds.default.bottom_right.x - SegmentBounds.default.top_left.x := by
      norm_num
    rcases hp : (SegmentsCursor.new time l).prev_segment with _ | prev
      <;> rcases hs : (SegmentsCursor.new time l).segment with _ | cur
    · rw [fuel_step_none_none hp hs]
      exact ⟨hdef1, hdef2⟩
    · rw [fuel_step_none_some hp hs]
      obtain ⟨hz0, hz1⟩ := hei _ (t_clamp_nonneg ((time - cur.start) / ZOOM_DURATION))
        (t_clamp_le_one _)
      obtain ⟨w1, w2⟩ := @from_segment_square cur time ev
      refine lerp_square hdef1 hdef2 ?_ ?_ hz0 hz1
      · rw [w1, w2]
      · rw [w1]
        exact hamt cur (cursor_segment_spec hs).1
    · rw [fuel_step_some_none hp hs]
      obtain ⟨hz0, hz1⟩ := heo _ (t_clamp_nonneg ((time - prev.end_) / ZOOM_DURATION))
        (t_clamp_le_one _)
      obtain ⟨w1, w2⟩ := @from_segment_square prev time ev
      refine lerp_square ?_ ?_ hdef1 hdef2 hz0 hz1
      · rw [w1, w2]
      · rw [w1]
        exact hamt prev (cursor_prev_mem hp)
    · obtain ⟨hz0, hz1⟩ := hei _ (t_clamp_nonneg ((time - cur.start) / ZOOM_DURATION))
        (t_clamp_le_one _)
      obtain ⟨wc1, wc2⟩ := @from_segment_square cur time ev
      obtain ⟨wp1, wp2⟩ := @from_segment_square prev time ev
      have hac := hamt cur (cursor_segment_spec hs).1
      have hap := hamt prev (cursor_prev_mem hp)
      by_cases heq : cur.start = prev.end_
      · rw [fuel_step_no_gap hp hs heq]
        refine (lerp_square ?_ ?_ ?_ ?_ hz0 hz1).imp (fun e => e) (fun e => e)
        · rw [wp1, wp2]
        · rw [wp1]
          exact hap
        · rw [wc1, wc2]
        · rw [wc1]
          exact hac
      · by_cases hlt : cur.start - prev.end_ < ZOOM_DURATION
        · rw [fuel_step_small_gap hp hs heq hlt]
          obtain ⟨m1, m2⟩ := ih cur.start
          refine lerp_square m1 m2 ?_ ?_ hz0 hz1
          · rw [wc1, wc2]
          · rw [wc1]
            exact hac
        · rw [fuel_step_large_gap hp hs heq hlt]
          refine lerp_square hdef1 hdef2 ?_ ?_ hz0 hz1
          · rw [wc1, wc2]
          · rw [wc1]
            exact hac

/-- C8: if every segment has `amount ≥ 1` and both easing functions map `[0,1]` into
`[0,1]`, the rectangle returned by interpolate has width equal to height and both strictly
positive. -/
theorem C8_square_positive (time : ℚ) (l : List ZoomSegment) (ev : Option CursorEvents)
    (ei eo : ℚ → ℚ) (hamt : ∀ s ∈ l, 1 ≤ s.amount)
    (hei : ∀ u : ℚ, 0 ≤ u → u ≤ 1 → 0 ≤ ei u ∧ ei u ≤ 1)
    (heo : ∀ u : ℚ, 0 ≤ u → u ≤ 1 → 0 ≤ eo u ∧ eo u ≤ 1) :
    ((InterpolatedZoom.new_with_easing time l ev ei eo).bounds.bottom_right.x -
        (InterpolatedZoom.new_with_easing time l ev ei eo).bounds.top_left.x =
      (InterpolatedZoom.new_with_easing time l ev ei eo).bounds.bottom_right.y -
        (InterpolatedZoom.new_with_easing time l ev ei eo).bounds.top_left.y) ∧
    0 < (InterpolatedZoom.new_with_easing time l ev ei eo).bounds.bottom_right.x -
        (InterpolatedZoom.new_with_easing time l ev ei eo).bounds.top_left.x := by
  obtain ⟨h1, h2⟩ := invariant_square_fuel l ev ei eo hamt hei heo (l.length + 1) time
  exact ⟨h1, lt_of_lt_of_le zero_lt_one h2⟩

/-- Witness for C8 on the demo list with identity easing at `time = 3`. -/
theorem C8_square_positive_witness :
    ((InterpolatedZoom.new_with_easing 3 segsDemo none id id).bounds.bottom_right.x -
        (InterpolatedZoom.new_with_easing 3 segsDemo none id id).bounds.top_left.x =
      (InterpolatedZoom.new_with_easing 3 segsDemo none id id).bounds.bottom_right.y -
        (InterpolatedZoom.new_with_easing 3 segsDemo none id id).bounds.top_left.y) ∧
    0 < (InterpolatedZoom.new_with_easing 3 segsDemo none id id).bounds.bottom_right.x -
        (InterpolatedZoom.new_with_easing 3 segsDemo none id id).bounds.top_left.x :=
  C8_square_positive 3 segsDemo none id id (by decide)
    (fun u h0 h1 => ⟨h0, h1⟩) (fun u h0 h1 => ⟨h0, h1⟩)

theorem track_irrel_fuel (l : List ZoomSegment) (ev : CursorEvents) (ei eo : ℚ → ℚ)
    (hm : ∀ s ∈ l, ∃ x y : ℚ, s.mode = ZoomMode.manual x y) :
    ∀ (n : ℕ) (time : ℚ),
      InterpolatedZoom.new_with_easing_fuel n time l (some ev) ei eo =
        InterpolatedZoom.new_with_easing_fuel n time l none ei eo := by
  intro n
  induction n with
  | zero => intro time; rfl
  | succ n ih =>
    intro time
    rcases hp : (SegmentsCursor.new time l).prev_segment with _ | prev
      <;> rcases hs : (SegmentsCursor.new time l).segment with _ | cur
    · rw [fuel_step_none_none hp hs, fuel_step_none_none hp hs]
    · obtain ⟨x, y, hmc⟩ := hm cur (cursor_segment_spec hs).1
      rw [fuel_step_none_some hp hs, fuel_step_none_some hp hs,
        from_segment_events_irrel hmc]
    · obtain ⟨x, y, hmp⟩ := hm prev (cursor_prev_mem hp)
      rw [fuel_step_some_none hp hs, fuel_step_some_none hp hs,
        from_segment_events_irrel hmp]
    · obtain ⟨x, y, hmc⟩ := hm cur (cursor_segment_spec hs).1
      obtain ⟨px, py, hmp⟩ := hm prev (cursor_prev_mem hp)
      by_cases heq : cur.start = prev.end_
      · rw [fuel_step_no_gap hp hs heq, fuel_step_no_gap hp hs heq,
          from_segment_events_irrel hmc, from_segment_events_irrel hmp]
      · by_cases hlt : cur.start - prev.end_ < ZOOM_DURATION
        · rw [fuel_step_small_gap hp hs heq hlt, fuel_step_small_gap hp hs heq hlt,
            from_segment_events_irrel hmc, ih]
        · rw [fuel_step_large_gap hp hs heq hlt, fuel_step_large_gap hp hs heq hlt,
            from_segment_events_irrel hmc]

/-- C10: for every time, easing pair and segment list in which every segment has Manual
mode, the output of interpolate is independent of the cursor track: calling with any track
and with no track produces identical `t` and `bounds`. -/
theorem C10_track_independence (time : ℚ) (l : List ZoomSegment) (ev : CursorEvents)
    (ei eo : ℚ → ℚ) (hm : ∀ s ∈ l, ∃ x y : ℚ, s.mode = ZoomMode.manual x y) :
    InterpolatedZoom.new_with_easing time l (some ev) ei eo =
      InterpolatedZoom.new_with_easing time l none ei eo :=
  track_irrel_fuel l ev ei eo hm (l.length + 1) time

/-- Witness for C10 on the all-Manual demo list against the demo track at `time = 5`. -/
theorem C10_track_independence_witness :
    InterpolatedZoom.new_with_easing 5 segsDemo (some trackDemo) id id =
      InterpolatedZoom.new_with_easing 5 segsDemo none id id :=
  C10_track_independence 5 segsDemo trackDemo id id (by
    intro s hs
    rcases List.mem_cons.mp hs with rfl | hs2
    · exact ⟨1 / 2, 1 / 2, rfl⟩
    · rcases List.mem_cons.mp hs2 with rfl | h3
      · exact ⟨1 / 2, 1 / 2, rfl⟩
      · cases h3)

theorem smoothing_foldl_spec (time window : ℚ) :
    ∀ (moves : List CursorMoveEvent) (acc : List (ℚ × ℚ × ℚ) × ℚ × ℚ × ℚ),
      moves.foldl (smoothing_step time window) acc =
        (acc.1 ++ (windowSamples moves time window).map
            (fun e => (e.x, e.y, triWeight time window e)),
          acc.2.1 + ((windowSamples moves time window).map (triWeight time window)).sum,
          acc.2.2.1 + ((windowSamples moves time window).map
            (fun e => e.x * triWeight time window e)).sum,
          acc.2.2.2 + ((windowSamples moves time window).map
            (fun e => e.y * triWeight time window e)).sum) := by
  intro moves
  induction moves with
  | nil =>
    intro acc
    simp [windowSamples]
  | cons e ms ih =>
    intro acc
    rw [List.foldl_cons, ih]
    by_cases hc : time - window / 2 ≤ eventSeconds e ∧ eventSeconds e ≤ time + window / 2
    · have hf : windowSamples (e :: ms) time window = e :: windowSamples ms time window := by
        rw [windowSamples, windowSamples, List.filter_cons_of_pos]
        simp only [Bool.and_eq_true, decide_eq_true_eq]
        exact hc
      have hstep : smoothing_step time window acc e =
          (acc.1 ++ [(e.x, e.y, triWeight time window e)],
            acc.2.1 + triWeight time window e,
            acc.2.2.1 + e.x * triWeight time window e,
            acc.2.2.2 + e.y * triWeight time window e) := by
        simp only [smoothing_step]
        rw [if_pos]
        · rfl
        · exact hc
      rw [hstep, hf]
      simp [add_assoc]
    · have hf : windowSamples (e :: ms) time window = windowSamples ms time window := by
        rw [windowSamples, List.filter_cons_of_neg]
        · rfl
        · simp only [eventSeconds] at hc
          simpa [windowSamples, Decidable.not_and_iff_or_not] using hc
      have hstep : smoothing_step time window acc e = acc := by
        simp only [smoothing_step]
        rw [if_neg]
        exact hc
      rw [hstep, hf]
theorem smoothing_scan_spec (moves : List CursorMoveEvent) (time window : ℚ) :
    smoothing_scan moves time window =
      ((windowSamples moves time window).map (fun e => (e.x, e.y, triWeight time window e)),
        ((windowSamples moves time window).map (triWeight time window)).sum,
        ((windowSamples moves time window).map (fun e => e.x * triWeight time window e)).sum,
        ((windowSamples moves time window).map
          (fun e => e.y * triWeight time window e)).sum) := by
  rw [smoothing_scan, smoothing_foldl_spec]
  simp

theorem neighbor_scan_append (time : ℚ) (l : List CursorMoveEvent) (e : CursorMoveEvent) :
    neighbor_scan (l ++ [e]) time = neighbor_step time (neighbor_scan l time) e := by
  rw [neighbor_scan, neighbor_scan, List.foldl_append, List.foldl_cons, List.foldl_nil]

theorem neighbor_scan_spec (time : ℚ) (moves : List CursorMoveEvent) :
    neighbor_scan moves time =
      (((moves.filter (fun e => decide (eventSeconds e ≤ time))).argmax eventSeconds).map
          (fun e => (eventSeconds e, e.x, e.y)),
        ((moves.filter (fun e => decide (time < eventSeconds e))).argmin eventSeconds).map
          (fun e => (eventSeconds e, e.x, e.y))) := by
  induction moves using List.reverseRecOn with
  | nil => rfl
  | append_singleton l e ih =>
    rw [neighbor_scan_append, ih, List.filter_append, List.filter_append]
    by_cases hc : e.process_time_ms / 1000 ≤ time
    · have hb : List.filter (fun x => decide (eventSeconds x ≤ time)) [e] = [e] := by
        simp [eventSeconds, hc]
      have ha : List.filter (fun x => decide (time < eventSeconds x)) [e] = [] := by
        simp [eventSeconds]
        exact hc
      rw [hb, ha, List.append_nil, List.argmax_concat]
      rcases hm : (List.filter (fun x => decide (eventSeconds x ≤ time)) l).argmax
          eventSeconds with _ | c
      · simp [neighbor_step, hc, eventSeconds]
      · by_cases hlt : eventSeconds c < eventSeconds e
        all_goals simp only [eventSeconds] at hlt
        · simp [neighbor_step, hc, hlt, eventSeconds]
        · simp [neighbor_step, hc, hlt, eventSeconds]
    · have hb : List.filter (fun x => decide (eventSeconds x ≤ time)) [e] = [] := by
        simp [eventSeconds]
        exact lt_of_not_le hc
      have ha : List.filter (fun x => decide (time < eventSeconds x)) [e] = [e] := by
        simp [eventSeconds]
        exact lt_of_not_le hc
      rw [hb, ha, List.append_nil, List.argmin_concat]
      rcases hm : (List.filter (fun x => decide (time < eventSeconds x)) l).argmin
          eventSeconds with _ | c
      · simp [neighbor_step, hc, eventSeconds]
      · by_cases hlt : eventSeconds e < eventSeconds c
        all_goals simp only [eventSeconds] at hlt
        · simp [neighbor_step, hc, hlt, eventSeconds]
        · simp [neighbor_step, hc, hlt, eventSeconds]
/-- C6 fails as stated: with no exact lookup and samples at 1 s, 2 s and 3 s (the middle
one exactly at the query time 2), the code takes the sample at the query time as the
before-neighbor and returns its position `(3/5, 3/5)`, while the claim's "nearest sample
strictly before" reading interpolates between the 1 s and 3 s samples to `(1/2, 1/2)`. -/
theorem C6_resolver_counterexample :
    get_smoothed_cursor_position trackDemo 2 CURSOR_SMOOTHING_WINDOW = some (3 / 5, 3 / 5) ∧
      resolve_claimed trackDemo 2 CURSOR_SMOOTHING_WINDOW = some (1 / 2, 1 / 2) ∧
      resolve_claimed trackDemo 2 CURSOR_SMOOTHING_WINDOW ≠
        get_smoothed_cursor_position trackDemo 2 CURSOR_SMOOTHING_WINDOW := by
  exact ⟨by decide, by decide, by decide⟩

/-- C6 amended: the resolver follows the claimed strategy chain exactly, except that the
fallback interpolation takes the nearest sample at-or-before `time` (a sample exactly at
the query time counts as the before-neighbor) rather than strictly before:
`get_smoothed_cursor_position` coincides with `resolve_amended` on all inputs. -/
theorem C6_resolver_amended (events : CursorEvents) (time window : ℚ) :
    get_smoothed_cursor_position events time window =
      resolve_amended events time window := by
  unfold get_smoothed_cursor_position resolve_amended
  cases hx : events.cursor_position_at time with
  | some pos =>
    rw [smoothing_scan_spec]
    by_cases hw : windowSamples events.moves time window = []
    · simp [hw]
    · by_cases ht :
        ((windowSamples events.moves time window).map (triWeight time window)).sum > 0
      · simp [hw, ht]
      · simp [hw, ht]
  | none =>
    rw [neighbor_scan_spec]
    rcases hma : (events.moves.filter (fun e => decide (eventSeconds e ≤ time))).argmax
        eventSeconds with _ | b
      <;> rcases hmi : (events.moves.filter (fun e => decide (time < eventSeconds e))).argmin
        eventSeconds with _ | a
    · simp
    · simp
    · simp
    · simp
end Cap
